import Mathlib

/-!
# Verification of the Audika-UTM-Master URL engine

Shallow embedding of the repository's core logic:

* `splitUrl` / `mergeUrl` from `src/unnamed/part_000` (the URL
  splitter/merger), together with a byte-level model of the
  `URLSearchParams` codec (WHATWG `application/x-www-form-urlencoded`
  parsing and serialization) that those functions call;
* `detectBestUrlColumn` from `src/App.tsx` (the best-column heuristic).

JavaScript strings are modelled as lists of byte values (`JStr`, the
UTF-8 bytes of the string); all the characters the algorithms inspect
(`?`, `#`, `=`, `&`, `.`, `/`, ASCII letters) are single bytes, so the
byte view is faithful for them.  Scores, which are JS numbers, are
modelled as rationals.
-/

/-- A JavaScript string, viewed as its sequence of UTF-8 byte values. -/
abbrev JStr := List Nat

/-- Bytes of a Lean string literal, as a `JStr` (ASCII literals only are
used below, where one char = one byte). -/
def str (s : String) : JStr := s.data.map Char.toNat

/-- JS whitespace recognised by `String.prototype.trim` (ASCII part). -/
def jsWhite (b : Nat) : Bool :=
  b == 9 || b == 10 || b == 11 || b == 12 || b == 13 || b == 32

/-- `String.prototype.trim`: drop leading and trailing whitespace. -/
def jsTrim (s : JStr) : JStr :=
  ((s.dropWhile jsWhite).reverse.dropWhile jsWhite).reverse

/-- `String.prototype.includes` for a single-byte needle. -/
def includesByte (s : JStr) (b : Nat) : Bool := s.contains b

/-- Is `needle` a prefix of `hay`? (`String.prototype.startsWith`.) -/
def isPrefixB : JStr → JStr → Bool
  | [], _ => true
  | _ :: _, [] => false
  | a :: as, b :: bs => a == b && isPrefixB as bs

/-- `hay.includes(needle)`: substring occurrence. -/
def jsIncludes (hay needle : JStr) : Bool :=
  match hay with
  | [] => needle == []
  | _ :: t => isPrefixB needle hay || jsIncludes t needle

/-- ASCII `String.prototype.toLowerCase`. -/
def byteLower (b : Nat) : Nat := if 65 ≤ b ∧ b ≤ 90 then b + 32 else b

/-- Lower-case a whole string (ASCII). -/
def toLowerB (s : JStr) : JStr := s.map byteLower

/-! ## The `URLSearchParams` codec (WHATWG urlencoded) -/

/-- Is `b` an ASCII hex digit? -/
def isHexDigit (b : Nat) : Bool :=
  (48 ≤ b && b ≤ 57) || (65 ≤ b && b ≤ 70) || (97 ≤ b && b ≤ 102)

/-- Numeric value of a hex digit byte. -/
def hexVal (b : Nat) : Nat :=
  if b ≤ 57 then b - 48 else if b ≤ 70 then b - 55 else b - 87

/-- Upper-case hex digit byte for a value `< 16`. -/
def hexDigit (n : Nat) : Nat := if n < 10 then 48 + n else 55 + n

/-- WHATWG percent-decoding: `%hh` becomes the byte `hh`; any malformed
`%` is passed through verbatim. -/
def percentDecode : JStr → JStr
  | [] => []
  | b :: rest =>
      if b = 37 then
        match rest with
        | h1 :: h2 :: rest' =>
            if isHexDigit h1 && isHexDigit h2 then
              (hexVal h1 * 16 + hexVal h2) :: percentDecode rest'
            else 37 :: percentDecode (h1 :: h2 :: rest')
        | r => 37 :: percentDecode r
      else b :: percentDecode rest

/-- `+` decodes to a space in urlencoded name/value components. -/
def plusToSpace (b : Nat) : Nat := if b == 43 then 32 else b

/-- Decode one urlencoded component: `+` → space, then percent-decode. -/
def decodeComponent (s : JStr) : JStr := percentDecode (s.map plusToSpace)

/-- Split a byte string on every occurrence of `sep`, keeping empty
pieces (the shape of the WHATWG parser's split on `&`). -/
def splitOnByte (sep : Nat) : JStr → List JStr
  | [] => [[]]
  | b :: rest =>
      let r := splitOnByte sep rest
      if b == sep then [] :: r
      else
        match r with
        | [] => [[b]]
        | x :: xs => (b :: x) :: xs

/-- Parse one `&`-separated piece: empty pieces are skipped; otherwise
split at the first `=` (a piece without `=` is a name with empty value)
and decode both sides. -/
def parseSeg (seg : JStr) : Option (JStr × JStr) :=
  if seg = [] then none
  else
    let name := seg.takeWhile (· != 61)
    let value := if seg.contains 61 then (seg.dropWhile (· != 61)).drop 1 else []
    some (decodeComponent name, decodeComponent value)

/-- `new URLSearchParams(init)`: strip one leading `?`, split on `&`,
and parse each piece.  Returns the ordered pair list the object holds. -/
def parseURLSearchParams (init : JStr) : List (JStr × JStr) :=
  let s := if init.head? = some 63 then init.tail else init
  (splitOnByte 38 s).filterMap parseSeg

/-- Bytes the urlencoded serializer leaves unescaped. -/
def isSafeByte (b : Nat) : Bool :=
  b == 42 || b == 45 || b == 46 || b == 95 ||
  (48 ≤ b && b ≤ 57) || (65 ≤ b && b ≤ 90) || (97 ≤ b && b ≤ 122)

/-- Serialize one byte: space → `+`, safe bytes verbatim, the rest
percent-encoded with upper-case hex. -/
def encByte (b : Nat) : JStr :=
  if b == 32 then [43]
  else if isSafeByte b then [b]
  else [37, hexDigit (b / 16 % 16), hexDigit (b % 16)]

/-- Serialize one urlencoded component. -/
def encodeComponent (s : JStr) : JStr := s.flatMap encByte

/-- Join pre-serialized `name=value` pieces with `&`. -/
def joinAmp : List JStr → JStr
  | [] => []
  | [x] => x
  | x :: xs => x ++ 38 :: joinAmp xs

/-- `URLSearchParams.prototype.toString`. -/
def serializeUSP (l : List (JStr × JStr)) : JStr :=
  joinAmp (l.map fun p => encodeComponent p.1 ++ 61 :: encodeComponent p.2)

/-- Replace the value of the first pair named `k` and drop the later
pairs with that name (the in-place part of `URLSearchParams.set`). -/
def setFirstDropRest (k v : JStr) : List (JStr × JStr) → List (JStr × JStr)
  | [] => []
  | p :: rest =>
      if p.1 == k then (k, v) :: rest.filter fun q => q.1 != k
      else p :: setFirstDropRest k v rest

/-- `URLSearchParams.prototype.set`: overwrite the first pair with this
name (dropping the others), or append when the name is absent. -/
def uspSet (l : List (JStr × JStr)) (k v : JStr) : List (JStr × JStr) :=
  if l.any fun p => p.1 == k then setFirstDropRest k v l
  else l ++ [(k, v)]

/-- JS object property write `obj[k] = v` on an association list:
overwrite in place if the key exists, else append. -/
def setAssoc (l : List (JStr × JStr)) (k v : JStr) : List (JStr × JStr) :=
  if l.any fun p => p.1 == k then
    l.map fun p => if p.1 == k then (k, v) else p
  else l ++ [(k, v)]

/-- JS object property read `obj[k]`, as an `Option`. -/
def lookupAssoc (l : List (JStr × JStr)) (k : JStr) : Option JStr :=
  (l.find? fun p => p.1 == k).map Prod.snd

/-! ## `splitUrl` and `mergeUrl` (src/unnamed/part_000) -/

/-- Result of `splitUrl`. -/
structure SplitResult where
  cleanUrl : JStr
  params : List (JStr × JStr)
deriving DecidableEq, Repr

/-- The naked-query heuristic of `splitUrl` (applied to the
fragment-stripped string): it has an `=` and either no `.`/`/`
structure or an explicit case-insensitive `utm_` marker. -/
def nakedQueryCond (f : JStr) : Bool :=
  let hasEquals := includesByte f 61
  let hasStructure := includesByte f 46 || includesByte f 47
  let isExplicitUtm := jsIncludes (toLowerB f) (str "utm_")
  hasEquals && (!hasStructure || isExplicitUtm)

/-- `urlStr.split('#')[0]`: everything before the first `#`. -/
def beforeHash (s : JStr) : JStr := s.takeWhile (· != 35)

/-- `s.indexOf(b)` when `b` is known to occur in `s`. -/
def idxOfByte (s : JStr) (b : Nat) : Nat := (s.takeWhile (· != b)).length

/-- Record parsed pairs into a fresh object, dropping empty keys
(the `params.forEach` loop of `splitUrl`; later writes overwrite). -/
def recordPairs (pairs : List (JStr × JStr)) : List (JStr × JStr) :=
  pairs.foldl (fun acc p => if p.1 = [] then acc else setAssoc acc p.1 p.2) []

/-- `splitUrl` from `src/unnamed/part_000`. -/
def splitUrl (urlStr : JStr) : SplitResult :=
  if urlStr = [] then ⟨[], []⟩
  else
    let trimmedUrl := jsTrim urlStr
    let urlWithoutFragment := beforeHash trimmedUrl
    let cs : JStr × JStr :=
      if includesByte urlWithoutFragment 63 then
        let queryIndex := idxOfByte urlWithoutFragment 63
        (urlWithoutFragment.take queryIndex, urlWithoutFragment.drop (queryIndex + 1))
      else if nakedQueryCond urlWithoutFragment then ([], urlWithoutFragment)
      else (trimmedUrl, [])
    let extractedParams :=
      if cs.2 = [] then [] else recordPairs (parseURLSearchParams cs.2)
    ⟨cs.1, extractedParams⟩

/-- The `URLSearchParams` object `mergeUrl` builds: every entry of
`parameters` whose value is non-empty and not all-whitespace is `set`. -/
def buildUSP (parameters : List (JStr × JStr)) : List (JStr × JStr) :=
  parameters.foldl
    (fun acc p => if p.2 ≠ [] ∧ jsTrim p.2 ≠ [] then uspSet acc p.1 p.2 else acc) []

/-- `mergeUrl` from `src/unnamed/part_000`. -/
def mergeUrl (cleanUrl : JStr) (parameters : List (JStr × JStr)) : JStr :=
  if cleanUrl = [] ∧ parameters = [] then []
  else
    let queryString := serializeUSP (buildUSP parameters)
    if cleanUrl = [] then queryString
    else if queryString ≠ [] then
      cleanUrl ++ (if includesByte cleanUrl 63 then 38 else 63) :: queryString
    else cleanUrl

/-! ## `detectBestUrlColumn` (src/App.tsx) -/

/-- A spreadsheet row: column name to cell value. -/
abbrev Row := List (JStr × JStr)

/-- `String(row[h] || '')`: the cell under header `h`, `""` if absent. -/
def rowGet (row : Row) (h : JStr) : JStr := (lookupAssoc row h).getD []

/-- The five content counters accumulated over the sample. -/
structure Counts where
  utm : Nat
  url : Nat
  trackingId : Nat
  queryString : Nat
  ampersand : Nat
deriving DecidableEq, Repr

/-- Value looks like an explicit UTM-tagged string. -/
def utmPat (lowerVal : JStr) : Bool :=
  jsIncludes lowerVal (str "utm_source=") || jsIncludes lowerVal (str "utm_medium=") ||
  jsIncludes lowerVal (str "utm_campaign=") || jsIncludes lowerVal (str "utm_id=")

/-- Value looks like a URL: `^https?://`i, `^www.`i, or starts `/?`. -/
def urlPat (val : JStr) : Bool :=
  isPrefixB (str "http://") (toLowerB val) || isPrefixB (str "https://") (toLowerB val) ||
  isPrefixB (str "www.") (toLowerB val) || isPrefixB (str "/?") val

/-- Value carries a known tracking id parameter. -/
def trackingPat (lowerVal : JStr) : Bool :=
  jsIncludes lowerVal (str "gclid=") || jsIncludes lowerVal (str "fbclid=") ||
  jsIncludes lowerVal (str "msclkid=")

/-- Value has general query-string structure. -/
def queryPat (val : JStr) : Bool := includesByte val 63 && includesByte val 61

/-- Value has an `&`-joined parameter list. -/
def ampPat (val : JStr) : Bool := includesByte val 38 && includesByte val 61

/-- One step of the `sample.forEach` counter loop. -/
def countStep (h : JStr) (c : Counts) (row : Row) : Counts :=
  let val := jsTrim (rowGet row h)
  if val = [] then c
  else
    let lowerVal := toLowerB val
    let c := if utmPat lowerVal then { c with utm := c.utm + 1 } else c
    let c := if urlPat val then { c with url := c.url + 1 } else c
    let c := if trackingPat lowerVal then { c with trackingId := c.trackingId + 1 } else c
    let c := if queryPat val then { c with queryString := c.queryString + 1 } else c
    if ampPat val then { c with ampersand := c.ampersand + 1 } else c

/-- The score the detector computes for one header over the sample
(the body of `headers.forEach` in `detectBestUrlColumn`). -/
def scoreHeader (h : JStr) (sample : List Row) (sampleSize : Nat) : ℚ :=
  let lowerH := toLowerB h
  let score : ℚ := 0
  let score := if lowerH = str "url" ∨ lowerH = str "original_url" ∨ lowerH = str "link"
    then score + 25 else score
  let score := if jsIncludes lowerH (str "utm") then score + 20 else score
  let score := if jsIncludes lowerH (str "landing_page") then score + 15 else score
  let score := if jsIncludes lowerH (str "destination") then score + 12 else score
  let score := if jsIncludes lowerH (str "campaign") then score + 10 else score
  let score := if jsIncludes lowerH (str "source") ∨ jsIncludes lowerH (str "medium")
    then score + 8 else score
  let score := if lowerH = str "g" ∨ lowerH = str "gclid" ∨ lowerH = str "click_id"
    then score + 5 else score
  let c := sample.foldl (countStep h) ⟨0, 0, 0, 0, 0⟩
  let score := score + (c.utm : ℚ) / sampleSize * 50
  let score := score + (c.url : ℚ) / sampleSize * 30
  let score := score + (c.trackingId : ℚ) / sampleSize * 20
  let score := score + (c.queryString : ℚ) / sampleSize * 10
  score + (c.ampersand : ℚ) / sampleSize * 25

/-- `detectBestUrlColumn` from `src/App.tsx`. -/
def detectBestUrlColumn (headers : List JStr) (data : List Row) : JStr :=
  if data.length = 0 then []
  else
    let sampleSize := min data.length 25
    let sample := data.take sampleSize
    let r := headers.foldl
      (fun (acc : JStr × ℚ) h =>
        let score := scoreHeader h sample sampleSize
        if score > acc.2 then (h, score) else acc)
      ([], -1)
    if r.2 > 5 then r.1 else []

/-! ## Helper lemmas: byte strings, trim, take/drop -/

theorem includesByte_iff {s : JStr} {b : Nat} : includesByte s b = true ↔ b ∈ s := by
  simp [includesByte, List.elem_iff]

theorem includesByte_eq_false {s : JStr} {b : Nat} : includesByte s b = false ↔ b ∉ s := by
  constructor
  · intro h hmem
    rw [includesByte_iff.mpr hmem] at h
    cases h
  · intro h
    cases hh : includesByte s b
    · rfl
    · exact absurd (includesByte_iff.mp hh) h

theorem takeWhile_append_stop {p : Nat → Bool} {a : JStr} {b : Nat} {l : JStr}
    (ha : ∀ x ∈ a, p x = true) (hb : p b = false) :
    (a ++ b :: l).takeWhile p = a := by
  induction a with
  | nil => simp [List.takeWhile_cons, hb]
  | cons x t ih =>
      have hx := ha x (List.mem_cons_self x t)
      simp only [List.cons_append, List.takeWhile_cons, hx, if_true]
      rw [ih fun y hy => ha y (List.mem_cons_of_mem _ hy)]

theorem dropWhile_append_stop {p : Nat → Bool} {a : JStr} {b : Nat} {l : JStr}
    (ha : ∀ x ∈ a, p x = true) (hb : p b = false) :
    (a ++ b :: l).dropWhile p = b :: l := by
  induction a with
  | nil => simp [List.dropWhile_cons, hb]
  | cons x t ih =>
      have hx := ha x (List.mem_cons_self x t)
      simp only [List.cons_append, List.dropWhile_cons, hx, if_true]
      exact ih fun y hy => ha y (List.mem_cons_of_mem _ hy)

theorem dropWhile_eq_self_of_head {p : Nat → Bool} {s : JStr}
    (h : ∀ x ∈ s.head?, p x = false) : s.dropWhile p = s := by
  cases s with
  | nil => rfl
  | cons x t => simp [List.dropWhile_cons, h x rfl]

theorem dropWhile_append_of_stop {p : Nat → Bool} (x : JStr) {y : JStr}
    (hy : ∀ b ∈ y.head?, p b = false) : (x ++ y).dropWhile p = x.dropWhile p ++ y := by
  induction x with
  | nil => simpa using dropWhile_eq_self_of_head hy
  | cons b t ih =>
      cases hb : p b with
      | true => simpa [List.dropWhile_cons, hb] using ih
      | false => simp [List.dropWhile_cons, hb]

theorem jsTrim_eq_self_of {s : JStr} (hh : ∀ b ∈ s.head?, jsWhite b = false)
    (hl : ∀ b ∈ s.getLast?, jsWhite b = false) : jsTrim s = s := by
  unfold jsTrim
  rw [dropWhile_eq_self_of_head hh,
    dropWhile_eq_self_of_head (by simpa [List.head?_reverse] using hl),
    List.reverse_reverse]

theorem jsTrim_self_dropWhile {s : JStr} (h : jsTrim s = s) :
    s.dropWhile jsWhite = s := by
  have h1 : (s.dropWhile jsWhite).length ≤ s.length := (List.dropWhile_sublist _).length_le
  have h2 : (jsTrim s).length ≤ (s.dropWhile jsWhite).length := by
    unfold jsTrim
    have hsub : ((s.dropWhile jsWhite).reverse.dropWhile jsWhite).Sublist
        (s.dropWhile jsWhite).reverse := List.dropWhile_sublist _
    simpa using hsub.length_le
  have h3 : (jsTrim s).length = s.length := by rw [h]
  exact (List.dropWhile_sublist _).eq_of_length (by omega)

theorem jsTrim_self_rev {s : JStr} (h : jsTrim s = s) :
    s.reverse.dropWhile jsWhite = s.reverse := by
  have hd := jsTrim_self_dropWhile h
  unfold jsTrim at h
  rw [hd] at h
  simpa using congrArg List.reverse h

theorem head_of_dropWhile_self {p : Nat → Bool} {s : JStr}
    (h : s.dropWhile p = s) : ∀ b ∈ s.head?, p b = false := by
  intro b hb
  cases s with
  | nil => simp at hb
  | cons x t =>
      simp only [List.head?_cons, Option.mem_def, Option.some.injEq] at hb
      subst hb
      by_contra hw
      rw [List.dropWhile_cons, if_pos (by simpa using hw)] at h
      have hsub : (t.dropWhile p).Sublist t := List.dropWhile_sublist _
      have h1 := hsub.length_le
      have h2 := congrArg List.length h
      simp at h2
      omega

theorem jsTrim_self_head {s : JStr} (h : jsTrim s = s) :
    ∀ b ∈ s.head?, jsWhite b = false :=
  head_of_dropWhile_self (jsTrim_self_dropWhile h)

theorem jsTrim_self_last {s : JStr} (h : jsTrim s = s) :
    ∀ b ∈ s.getLast?, jsWhite b = false := fun b hb =>
  head_of_dropWhile_self (jsTrim_self_rev h) b (by rw [List.head?_reverse]; exact hb)

theorem jsTrim_append_sep {a : JStr} (sep : Nat) (rest : JStr)
    (hsep : jsWhite sep = false) (ha : jsTrim a = a) :
    jsTrim (a ++ sep :: rest) = a ++ sep :: (rest.reverse.dropWhile jsWhite).reverse := by
  have h1 : (a ++ sep :: rest).dropWhile jsWhite = a ++ sep :: rest := by
    cases a with
    | nil => simp [List.dropWhile_cons, hsep]
    | cons x t =>
        have hx := jsTrim_self_head ha x (by simp)
        simp [List.dropWhile_cons, hx]
  have h2 : (a ++ sep :: rest).reverse = rest.reverse ++ (sep :: a.reverse) := by
    simp
  unfold jsTrim
  rw [h1, h2, dropWhile_append_of_stop _ (by simp [hsep])]
  simp

/-! ## Branch lemmas for `splitUrl` -/

theorem nakedQueryCond_nil : nakedQueryCond [] = false := by decide

/-- The no-query branch: neither a `?` nor the naked-query heuristic. -/
theorem splitUrl_noQuery {u : JStr}
    (hq : includesByte (beforeHash (jsTrim u)) 63 = false)
    (hn : nakedQueryCond (beforeHash (jsTrim u)) = false) :
    splitUrl u = ⟨jsTrim u, []⟩ := by
  by_cases hu : u = []
  · subst hu; rfl
  · simp [splitUrl, hu, hq, hn]

/-- The naked-query branch. -/
theorem splitUrl_naked {u : JStr}
    (hq : includesByte (beforeHash (jsTrim u)) 63 = false)
    (hn : nakedQueryCond (beforeHash (jsTrim u)) = true) :
    splitUrl u = ⟨[], recordPairs (parseURLSearchParams (beforeHash (jsTrim u)))⟩ := by
  have hu : u ≠ [] := by
    intro h
    rw [h] at hn
    exact absurd hn (by decide)
  have hf : beforeHash (jsTrim u) ≠ [] := by
    intro h
    rw [h, nakedQueryCond_nil] at hn
    cases hn
  simp [splitUrl, hu, hq, hn, hf]

/-- The standard `?` branch. -/
theorem splitUrl_query {u : JStr}
    (hq : includesByte (beforeHash (jsTrim u)) 63 = true) :
    splitUrl u =
      ⟨(beforeHash (jsTrim u)).take (idxOfByte (beforeHash (jsTrim u)) 63),
        if (beforeHash (jsTrim u)).drop (idxOfByte (beforeHash (jsTrim u)) 63 + 1) = [] then []
        else recordPairs (parseURLSearchParams
          ((beforeHash (jsTrim u)).drop (idxOfByte (beforeHash (jsTrim u)) 63 + 1)))⟩ := by
  have hu : u ≠ [] := by
    intro h
    rw [h] at hq
    cases hq
  simp [splitUrl, hu, hq]

theorem beforeHash_of_no_hash {s : JStr} (h : 35 ∉ s) : beforeHash s = s :=
  List.takeWhile_eq_self_iff.mpr fun b hb => by
    simp only [bne_iff_ne, ne_eq]
    exact fun hb35 => h (hb35 ▸ hb)

/-- Locating the first `?` in `a ++ '?' :: rest` when `a` is `?`-free. -/
theorem idxOf_split {a : JStr} (rest : JStr) (ha : (63 : Nat) ∉ a) :
    (a ++ 63 :: rest).take (idxOfByte (a ++ 63 :: rest) 63) = a ∧
    (a ++ 63 :: rest).drop (idxOfByte (a ++ 63 :: rest) 63 + 1) = rest := by
  have hidx : idxOfByte (a ++ 63 :: rest) 63 = a.length := by
    unfold idxOfByte
    rw [takeWhile_append_stop (fun x hx => by
        simp only [bne_iff_ne, ne_eq]
        exact fun h63 => ha (h63 ▸ hx)) (by decide)]
  constructor
  · rw [hidx]
    exact List.take_left a (63 :: rest)
  · rw [hidx, show a ++ 63 :: rest = (a ++ [63]) ++ rest by simp,
      show a.length + 1 = (a ++ [63]).length by simp]
    exact List.drop_left _ _

/-! ## Claim C2: fragment handling -/

/-- C2 (counterexample): `splitUrl "abc#frag"` keeps the fragment in
`cleanUrl` — in the no-query branch the fragment is *not* discarded
from `cleanUrl`, refuting the claim that the fragment appears in
neither output in all three branches. -/
theorem C2_fragment_counterexample :
    (splitUrl (str "abc#frag")).cleanUrl = str "abc#frag" ∧
    jsIncludes (splitUrl (str "abc#frag")).cleanUrl (str "#frag") = true ∧
    (splitUrl (str "abc#frag")).params = [] := by decide

/-- C2 (amended): for a trimmed, `#`-free prefix `u`, appending
`'#' :: frag` never affects `params`; when `u` contains `?` or satisfies
the naked-query heuristic the whole result equals `splitUrl u` (fragment
fully discarded); but in the no-query branch `cleanUrl` is the whole
trimmed input, fragment included. -/
theorem C2_fragment_amended (u frag : JStr) (hu35 : (35 : Nat) ∉ u)
    (hutrim : jsTrim u = u) :
    (splitUrl (u ++ 35 :: frag)).params = (splitUrl u).params ∧
    (includesByte u 63 = true ∨ nakedQueryCond u = true →
      splitUrl (u ++ 35 :: frag) = splitUrl u) ∧
    (includesByte u 63 = false → nakedQueryCond u = false →
      (splitUrl (u ++ 35 :: frag)).cleanUrl = jsTrim (u ++ 35 :: frag)) := by
  have htrim : jsTrim (u ++ 35 :: frag)
      = u ++ 35 :: (frag.reverse.dropWhile jsWhite).reverse :=
    jsTrim_append_sep 35 frag (by decide) hutrim
  have hstrip : beforeHash (jsTrim (u ++ 35 :: frag)) = u := by
    rw [htrim]
    unfold beforeHash
    exact takeWhile_append_stop
      (fun x hx => by
        simp only [bne_iff_ne, ne_eq]
        exact fun h35 => hu35 (h35 ▸ hx))
      (by decide)
  have hstrip' : beforeHash (jsTrim u) = u := by rw [hutrim]; exact beforeHash_of_no_hash hu35
  refine ⟨?_, ?_, ?_⟩
  · cases hq : includesByte u 63 with
    | true =>
        rw [splitUrl_query (by rw [hstrip]; exact hq), splitUrl_query (by rw [hstrip']; exact hq),
          hstrip, hstrip']
    | false =>
        cases hn : nakedQueryCond u with
        | true =>
            rw [splitUrl_naked (by rw [hstrip]; exact hq) (by rw [hstrip]; exact hn),
              splitUrl_naked (by rw [hstrip']; exact hq) (by rw [hstrip']; exact hn),
              hstrip, hstrip']
        | false =>
            rw [splitUrl_noQuery (by rw [hstrip]; exact hq) (by rw [hstrip]; exact hn),
              splitUrl_noQuery (by rw [hstrip']; exact hq) (by rw [hstrip']; exact hn)]
  · intro h
    cases h with
    | inl hq =>
        rw [splitUrl_query (by rw [hstrip]; exact hq), splitUrl_query (by rw [hstrip']; exact hq),
          hstrip, hstrip']
    | inr hn =>
        cases hq : includesByte u 63 with
        | true =>
            rw [splitUrl_query (by rw [hstrip]; exact hq),
              splitUrl_query (by rw [hstrip']; exact hq), hstrip, hstrip']
        | false =>
            rw [splitUrl_naked (by rw [hstrip]; exact hq) (by rw [hstrip]; exact hn),
              splitUrl_naked (by rw [hstrip']; exact hq) (by rw [hstrip']; exact hn),
              hstrip, hstrip']
  · intro hq hn
    rw [splitUrl_noQuery (by rw [hstrip]; exact hq) (by rw [hstrip]; exact hn)]

/-- C2 witness: a concrete instance of the amended theorem. -/
theorem C2_fragment_witness :
    splitUrl (str "a?b=1" ++ 35 :: str "x") = splitUrl (str "a?b=1") :=
  (C2_fragment_amended (str "a?b=1") (str "x") (by decide) (by decide)).2.1
    (Or.inl (by decide))

/-! ## Claim C3: the naked-query form -/

/-- C3: on a trimmed non-blank input whose fragment-stripped part has no
`?`, `splitUrl` yields `cleanUrl = ""` iff the naked-query heuristic
holds (has `=` and: no `.`/`/`, or contains `utm_` case-insensitively);
when it holds the whole fragment-stripped string is parsed as a query;
when it fails the result is the trimmed input with empty params. -/
theorem C3_nakedForm (u : JStr) (htrim : jsTrim u = u) (hne : u ≠ [])
    (hq : includesByte (beforeHash u) 63 = false) :
    ((splitUrl u).cleanUrl = [] ↔ nakedQueryCond (beforeHash u) = true) ∧
    (nakedQueryCond (beforeHash u) = true →
      splitUrl u = ⟨[], recordPairs (parseURLSearchParams (beforeHash u))⟩) ∧
    (nakedQueryCond (beforeHash u) = false → splitUrl u = ⟨u, []⟩) := by
  have hq' : includesByte (beforeHash (jsTrim u)) 63 = false := by rw [htrim]; exact hq
  refine ⟨?_, ?_, ?_⟩
  · constructor
    · intro hc
      cases hn : nakedQueryCond (beforeHash u) with
      | true => rfl
      | false =>
          rw [splitUrl_noQuery hq' (by rw [htrim]; exact hn)] at hc
          exact absurd (htrim ▸ hc) hne
    · intro hn
      rw [splitUrl_naked hq' (by rw [htrim]; exact hn)]
  · intro hn
    rw [splitUrl_naked hq' (by rw [htrim]; exact hn), htrim]
  · intro hn
    rw [splitUrl_noQuery hq' (by rw [htrim]; exact hn), htrim]

/-- C3 witness: the spec's own example `split("a.b=1")` — structure
present without a UTM marker, so not treated as a naked query. -/
theorem C3_nakedForm_witness :
    splitUrl (str "a.b=1") = ⟨str "a.b=1", []⟩ :=
  (C3_nakedForm (str "a.b=1") (by decide) (by decide) (by decide)).2.2 (by decide)

/-! ## Claim C4: split-result invariant -/

/-- C4 (counterexample): on `"?a=1"` the returned `cleanUrl` is `""`
although the input is not blank and was not consumed by the naked-query
branch (the standard `?` branch fired), refuting the claimed "only
when". -/
theorem C4_invariant_counterexample :
    (splitUrl (str "?a=1")).cleanUrl = [] ∧
    jsTrim (str "?a=1") ≠ [] ∧
    includesByte (beforeHash (jsTrim (str "?a=1"))) 63 = true ∧
    (splitUrl (str "?a=1")).params = [(str "a", str "1")] := by decide

/-- C4 (amended): if no query content is identified, `splitUrl` returns
empty params and the trimmed input; and `cleanUrl = ""` only when the
input is blank, or the naked-query branch consumed the whole
fragment-stripped string, or the fragment-stripped trimmed input starts
with `?`. -/
theorem C4_invariant_amended (u : JStr) :
    (includesByte (beforeHash (jsTrim u)) 63 = false →
      nakedQueryCond (beforeHash (jsTrim u)) = false →
      splitUrl u = ⟨jsTrim u, []⟩) ∧
    ((splitUrl u).cleanUrl = [] →
      jsTrim u = [] ∨
      (includesByte (beforeHash (jsTrim u)) 63 = false ∧
        nakedQueryCond (beforeHash (jsTrim u)) = true) ∨
      (beforeHash (jsTrim u)).head? = some 63) := by
  refine ⟨fun hq hn => splitUrl_noQuery hq hn, ?_⟩
  intro hc
  cases hq : includesByte (beforeHash (jsTrim u)) 63 with
  | true =>
      right; right
      rw [splitUrl_query hq] at hc
      have hf : beforeHash (jsTrim u) ≠ [] := by
        intro h
        rw [h] at hq
        cases hq
      cases hfc : beforeHash (jsTrim u) with
      | nil => exact absurd hfc hf
      | cons x t =>
          simp only [hfc, List.head?_cons, Option.some.injEq]
          by_contra hx
          rw [hfc] at hc
          unfold idxOfByte at hc
          rw [List.takeWhile_cons, if_pos (by simpa using hx)] at hc
          simp at hc
  | false =>
      cases hn : nakedQueryCond (beforeHash (jsTrim u)) with
      | true => exact Or.inr (Or.inl ⟨rfl, rfl⟩)
      | false =>
          left
          rw [splitUrl_noQuery hq hn] at hc
          exact hc

/-- C4 witness: a concrete no-query input. -/
theorem C4_invariant_witness : splitUrl (str "abc") = ⟨str "abc", []⟩ :=
  (C4_invariant_amended (str "abc")).1 (by decide) (by decide)

/-! ## Codec round-trip lemmas -/

theorem hexVal_hexDigit {n : Nat} (h : n < 16) : hexVal (hexDigit n) = n := by
  unfold hexVal hexDigit
  split_ifs <;> omega

theorem isHexDigit_hexDigit {n : Nat} (h : n < 16) : isHexDigit (hexDigit n) = true := by
  unfold isHexDigit hexDigit
  split_ifs <;> (simp only [Bool.or_eq_true, Bool.and_eq_true, decide_eq_true_eq]; omega)

theorem percentDecode_cons {b : Nat} (t : JStr) (hb : b ≠ 37) :
    percentDecode (b :: t) = b :: percentDecode t := by
  rw [percentDecode.eq_def]
  simp [hb]

theorem percentDecode_pct {h1 h2 : Nat} (t : JStr)
    (hh : (isHexDigit h1 && isHexDigit h2) = true) :
    percentDecode (37 :: h1 :: h2 :: t)
      = (hexVal h1 * 16 + hexVal h2) :: percentDecode t := by
  rw [percentDecode.eq_def]
  simp [hh]

/-- The output alphabet of the urlencoded serializer. -/
def encOK (c : Nat) : Bool := c == 43 || c == 37 || isSafeByte c || isHexDigit c

theorem isSafeByte_ne {b : Nat} (h : isSafeByte b = true) : b ≠ 32 ∧ b ≠ 37 ∧ b ≠ 43 := by
  unfold isSafeByte at h
  simp only [Bool.or_eq_true, beq_iff_eq, Bool.and_eq_true, decide_eq_true_eq] at h
  omega

theorem encByte_ok {b : Nat} : ∀ c ∈ encByte b, encOK c = true := by
  intro c hc
  unfold encByte at hc
  split_ifs at hc with h1 h2
  · simp only [List.mem_singleton] at hc; subst hc; decide
  · simp only [List.mem_singleton] at hc; subst hc; simp [encOK, h2]
  · simp only [List.mem_cons, List.not_mem_nil, or_false] at hc
    rcases hc with rfl | rfl | rfl
    · decide
    · simp [encOK, isHexDigit_hexDigit (Nat.mod_lt _ (by omega))]
    · simp [encOK, isHexDigit_hexDigit (Nat.mod_lt _ (by omega))]

theorem encOK_props {c : Nat} (h : encOK c = true) :
    c ≠ 38 ∧ c ≠ 61 ∧ c ≠ 35 ∧ c ≠ 63 ∧ jsWhite c = false := by
  unfold encOK isSafeByte isHexDigit at h
  simp only [Bool.or_eq_true, beq_iff_eq, Bool.and_eq_true, decide_eq_true_eq] at h
  refine ⟨by omega, by omega, by omega, by omega, ?_⟩
  unfold jsWhite
  simp only [Bool.or_eq_false_iff, beq_eq_false_iff_ne, ne_eq]
  omega

theorem decode_enc_chunk {b : Nat} (hb : b < 256) (t : JStr) :
    percentDecode ((encByte b ++ t).map plusToSpace)
      = b :: percentDecode (t.map plusToSpace) := by
  unfold encByte
  split_ifs with h1 h2
  · have hb32 : b = 32 := by simpa using h1
    subst hb32
    simp only [List.singleton_append, List.map_cons]
    rw [show plusToSpace 43 = 32 from rfl, percentDecode_cons _ (by decide)]
  · obtain ⟨h32, h37, h43⟩ := isSafeByte_ne h2
    simp only [List.singleton_append, List.map_cons]
    rw [show plusToSpace b = b from by simp [plusToSpace, h43],
      percentDecode_cons _ h37]
  · have ph : ∀ n, n < 16 → plusToSpace (hexDigit n) = hexDigit n := by
      intro n hn
      unfold plusToSpace hexDigit
      split_ifs with hn10 hP hP
      · exact absurd (by simpa using hP) (by omega)
      · rfl
      · exact absurd (by simpa using hP) (by omega)
      · rfl
    have m1 : b / 16 % 16 < 16 := Nat.mod_lt _ (by omega)
    have m2 : b % 16 < 16 := Nat.mod_lt _ (by omega)
    simp only [List.cons_append, List.nil_append, List.map_cons]
    rw [show plusToSpace 37 = 37 from rfl, ph _ m1, ph _ m2,
      percentDecode_pct _ (by rw [isHexDigit_hexDigit m1, isHexDigit_hexDigit m2]; rfl),
      hexVal_hexDigit m1, hexVal_hexDigit m2]
    congr 1
    omega

theorem decodeComponent_encodeComponent {s : JStr} (hs : ∀ b ∈ s, b < 256) :
    decodeComponent (encodeComponent s) = s := by
  unfold decodeComponent encodeComponent
  induction s with
  | nil => rfl
  | cons b t ih =>
      rw [List.flatMap_cons, decode_enc_chunk (hs b (List.mem_cons_self b t)) _]
      exact congrArg (b :: ·) (ih fun x hx => hs x (List.mem_cons_of_mem _ hx))

theorem encodeComponent_ok {s : JStr} : ∀ c ∈ encodeComponent s, encOK c = true := by
  intro c hc
  unfold encodeComponent at hc
  rw [List.mem_flatMap] at hc
  obtain ⟨b, _, hcb⟩ := hc
  exact encByte_ok c hcb

theorem mem_joinAmp {segs : List JStr} {c : Nat} (hc : c ∈ joinAmp segs) :
    c = 38 ∨ ∃ s ∈ segs, c ∈ s := by
  induction segs with
  | nil => cases hc
  | cons x xs ih =>
      cases xs with
      | nil => exact Or.inr ⟨x, by simp, hc⟩
      | cons y ys =>
          rw [show joinAmp (x :: y :: ys) = x ++ 38 :: joinAmp (y :: ys) from rfl] at hc
          rcases List.mem_append.mp hc with h | h
          · exact Or.inr ⟨x, by simp, h⟩
          · rcases List.mem_cons.mp h with rfl | h
            · exact Or.inl rfl
            · rcases ih h with h38 | ⟨s, hs, hcs⟩
              · exact Or.inl h38
              · exact Or.inr ⟨s, List.mem_cons_of_mem _ hs, hcs⟩

theorem serializeUSP_bytes {l : List (JStr × JStr)} :
    ∀ c ∈ serializeUSP l, encOK c = true ∨ c = 38 ∨ c = 61 := by
  intro c hc
  unfold serializeUSP at hc
  rcases mem_joinAmp hc with rfl | ⟨s, hs, hcs⟩
  · exact Or.inr (Or.inl rfl)
  · rw [List.mem_map] at hs
    obtain ⟨p, _, rfl⟩ := hs
    rcases List.mem_append.mp hcs with h | h
    · exact Or.inl (encodeComponent_ok _ h)
    · rcases List.mem_cons.mp h with rfl | h
      · exact Or.inr (Or.inr rfl)
      · exact Or.inl (encodeComponent_ok _ h)

theorem serializeUSP_byte_props {l : List (JStr × JStr)} :
    ∀ c ∈ serializeUSP l, c ≠ 63 ∧ c ≠ 35 ∧ jsWhite c = false := by
  intro c hc
  rcases serializeUSP_bytes c hc with h | rfl | rfl
  · have hp := encOK_props h
    exact ⟨hp.2.2.2.1, hp.2.2.1, hp.2.2.2.2⟩
  · exact ⟨by omega, by omega, by decide⟩
  · exact ⟨by omega, by omega, by decide⟩

theorem splitOnByte_no_sep {sep : Nat} {s : JStr} (h : sep ∉ s) :
    splitOnByte sep s = [s] := by
  induction s with
  | nil => rfl
  | cons b t ih =>
      have hb : (b == sep) = false := by
        simp only [beq_eq_false_iff_ne, ne_eq]
        exact fun e => h (by simp [e])
      simp [splitOnByte, hb, ih fun hm => h (List.mem_cons_of_mem _ hm)]

theorem splitOnByte_append {sep : Nat} {a : JStr} (ha : sep ∉ a) (t : JStr) :
    splitOnByte sep (a ++ sep :: t) = a :: splitOnByte sep t := by
  induction a with
  | nil => simp [splitOnByte]
  | cons b bs ih =>
      have hb : (b == sep) = false := by
        simp only [beq_eq_false_iff_ne, ne_eq]
        exact fun e => ha (by simp [e])
      simp [splitOnByte, hb, ih fun hm => ha (List.mem_cons_of_mem _ hm)]

theorem splitOnByte_joinAmp {segs : List JStr} (hne : segs ≠ [])
    (h : ∀ s ∈ segs, (38 : Nat) ∉ s) : splitOnByte 38 (joinAmp segs) = segs := by
  induction segs with
  | nil => exact absurd rfl hne
  | cons x xs ih =>
      cases xs with
      | nil => exact splitOnByte_no_sep (h x (by simp))
      | cons y ys =>
          rw [show joinAmp (x :: y :: ys) = x ++ 38 :: joinAmp (y :: ys) from rfl,
            splitOnByte_append (h x (by simp)) _,
            ih (by simp) fun s hs => h s (List.mem_cons_of_mem _ hs)]

theorem parseSeg_enc {k v : JStr} (hk : ∀ b ∈ k, b < 256) (hv : ∀ b ∈ v, b < 256) :
    parseSeg (encodeComponent k ++ 61 :: encodeComponent v) = some (k, v) := by
  have hkOK : ∀ c ∈ encodeComponent k, (c != 61) = true := fun c hc => by
    simpa using (encOK_props (encodeComponent_ok c hc)).2.1
  have hname : (encodeComponent k ++ 61 :: encodeComponent v).takeWhile (· != 61)
      = encodeComponent k := takeWhile_append_stop hkOK (by decide)
  have hval : ((encodeComponent k ++ 61 :: encodeComponent v).dropWhile (· != 61)).drop 1
      = encodeComponent v := by
    rw [dropWhile_append_stop hkOK (by decide)]
    rfl
  have hcont : (encodeComponent k ++ 61 :: encodeComponent v).contains 61 = true :=
    includesByte_iff.mpr (by simp)
  unfold parseSeg
  rw [if_neg (by simp)]
  simp only [hname, hcont, if_true, hval]
  rw [decodeComponent_encodeComponent hk, decodeComponent_encodeComponent hv]

theorem seg_no_amp {p : JStr × JStr} :
    (38 : Nat) ∉ encodeComponent p.1 ++ 61 :: encodeComponent p.2 := by
  intro hmem
  rcases List.mem_append.mp hmem with h | h
  · exact (encOK_props (encodeComponent_ok _ h)).1 rfl
  · rcases List.mem_cons.mp h with h38 | h
    · exact absurd h38 (by decide)
    · exact (encOK_props (encodeComponent_ok _ h)).1 rfl

theorem filterMap_parseSeg {l : List (JStr × JStr)}
    (hb : ∀ p ∈ l, (∀ b ∈ p.1, b < 256) ∧ (∀ b ∈ p.2, b < 256)) :
    ((l.map fun p => encodeComponent p.1 ++ 61 :: encodeComponent p.2).filterMap parseSeg)
      = l := by
  induction l with
  | nil => rfl
  | cons p t ih =>
      simp only [List.map_cons, List.filterMap_cons]
      rw [parseSeg_enc (hb p (List.mem_cons_self p t)).1 (hb p (List.mem_cons_self p t)).2]
      rw [ih fun q hq => hb q (List.mem_cons_of_mem _ hq)]

theorem parse_serializeUSP {l : List (JStr × JStr)}
    (hb : ∀ p ∈ l, (∀ b ∈ p.1, b < 256) ∧ (∀ b ∈ p.2, b < 256)) :
    parseURLSearchParams (serializeUSP l) = l := by
  cases hl : l with
  | nil => rfl
  | cons p t =>
      have hhead : ¬(serializeUSP l).head? = some 63 := by
        cases hsz : serializeUSP l with
        | nil => simp
        | cons c cs =>
            simp only [List.head?_cons, Option.some.injEq]
            have hcmem : c ∈ serializeUSP l := by rw [hsz]; exact List.mem_cons_self _ _
            exact (serializeUSP_byte_props _ hcmem).1
      rw [← hl]
      have hsegs : ∀ s ∈ l.map fun p => encodeComponent p.1 ++ 61 :: encodeComponent p.2,
          (38 : Nat) ∉ s := fun s hs => by
        rw [List.mem_map] at hs
        obtain ⟨q, _, rfl⟩ := hs
        exact seg_no_amp
      have hne' : (l.map fun p => encodeComponent p.1 ++ 61 :: encodeComponent p.2) ≠ [] := by
        rw [hl]; simp
      simp only [parseURLSearchParams]
      rw [if_neg hhead,
        show serializeUSP l
          = joinAmp (l.map fun p => encodeComponent p.1 ++ 61 :: encodeComponent p.2) from rfl,
        splitOnByte_joinAmp hne' hsegs]
      exact filterMap_parseSeg hb

/-! ## Association-list lemmas -/

theorem any_keys_eq_false {l : List (JStr × JStr)} {k : JStr}
    (h : k ∉ l.map Prod.fst) : (l.any fun p => p.1 == k) = false := by
  rw [List.any_eq_false]
  intro p hp
  simp only [beq_iff_eq]
  exact fun he => h (he ▸ List.mem_map_of_mem Prod.fst hp)

theorem setAssoc_absent {l : List (JStr × JStr)} {k v : JStr}
    (h : k ∉ l.map Prod.fst) : setAssoc l k v = l ++ [(k, v)] := by
  unfold setAssoc
  rw [any_keys_eq_false h]
  simp

theorem uspSet_absent {l : List (JStr × JStr)} {k v : JStr}
    (h : k ∉ l.map Prod.fst) : uspSet l k v = l ++ [(k, v)] := by
  unfold uspSet
  rw [any_keys_eq_false h]
  simp

theorem lookupAssoc_cons {q : JStr × JStr} {t : List (JStr × JStr)} {k : JStr} :
    lookupAssoc (q :: t) k = if q.1 == k then some q.2 else lookupAssoc t k := by
  unfold lookupAssoc
  rw [List.find?_cons]
  by_cases hq : (q.1 == k) = true
  · simp [hq]
  · simp [Bool.eq_false_iff.mpr hq]

theorem lookupAssoc_append {l₁ l₂ : List (JStr × JStr)} {k : JStr} :
    lookupAssoc (l₁ ++ l₂) k = (lookupAssoc l₁ k).or (lookupAssoc l₂ k) := by
  unfold lookupAssoc
  rw [List.find?_append]
  cases l₁.find? fun p => p.1 == k <;> simp

theorem lookupAssoc_map_update_self {l : List (JStr × JStr)} {k v : JStr}
    (hany : (l.any fun p => p.1 == k) = true) :
    lookupAssoc (l.map fun p => if p.1 == k then (k, v) else p) k = some v := by
  induction l with
  | nil => cases hany
  | cons q t ih =>
      rw [List.any_cons] at hany
      by_cases hq : (q.1 == k) = true
      · rw [List.map_cons, if_pos hq, lookupAssoc_cons]
        simp
      · have hq' : (q.1 == k) = false := Bool.eq_false_iff.mpr hq
        have hany' : (t.any fun p => p.1 == k) = true := by simpa [hq'] using hany
        rw [List.map_cons, if_neg hq, lookupAssoc_cons, if_neg hq]
        exact ih hany'

theorem lookupAssoc_map_update_ne {l : List (JStr × JStr)} {k v k' : JStr}
    (hne : k ≠ k') :
    lookupAssoc (l.map fun p => if p.1 == k then (k, v) else p) k'
      = lookupAssoc l k' := by
  induction l with
  | nil => rfl
  | cons q t ih =>
      by_cases hq : (q.1 == k) = true
      · have hqk : q.1 = k := by simpa using hq
        have h1 : (k == k') = false := by simpa using hne
        rw [List.map_cons, if_pos hq, lookupAssoc_cons, lookupAssoc_cons]
        simp only [h1, hqk]
        exact ih
      · rw [List.map_cons, if_neg hq, lookupAssoc_cons, lookupAssoc_cons]
        by_cases hq' : (q.1 == k') = true
        · simp [hq']
        · simp only [Bool.eq_false_iff.mpr hq', if_neg]
          exact ih

theorem lookupAssoc_setAssoc_self (l : List (JStr × JStr)) (k v : JStr) :
    lookupAssoc (setAssoc l k v) k = some v := by
  unfold setAssoc
  cases hany : (l.any fun p => p.1 == k) with
  | true =>
      rw [if_pos rfl]
      exact lookupAssoc_map_update_self hany
  | false =>
      rw [if_neg (by simp), lookupAssoc_append]
      have h1 : lookupAssoc l k = none := by
        unfold lookupAssoc
        rw [List.find?_eq_none.mpr]
        · rfl
        · intro p hp
          have := List.any_eq_false.mp hany p hp
          simpa using this
      rw [h1]
      simp [lookupAssoc_cons]

theorem lookupAssoc_setAssoc_ne (l : List (JStr × JStr)) {k k' : JStr} (v : JStr)
    (hne : k ≠ k') :
    lookupAssoc (setAssoc l k v) k' = lookupAssoc l k' := by
  unfold setAssoc
  cases hany : (l.any fun p => p.1 == k) with
  | true =>
      rw [if_pos rfl]
      exact lookupAssoc_map_update_ne hne
  | false =>
      rw [if_neg (by simp), lookupAssoc_append]
      have h2 : lookupAssoc [(k, v)] k' = none := by
        rw [lookupAssoc_cons]
        simp [show (k == k') = false from by simpa using hne, lookupAssoc]
      rw [h2]
      cases lookupAssoc l k' <;> simp

/-! ## `buildUSP` and `recordPairs` on well-formed inputs -/

theorem foldl_uspSet_append {l : List (JStr × JStr)} :
    ∀ acc : List (JStr × JStr),
      (acc.map Prod.fst ++ l.map Prod.fst).Nodup →
      (∀ p ∈ l, p.2 ≠ [] ∧ jsTrim p.2 ≠ []) →
      l.foldl (fun acc p => if p.2 ≠ [] ∧ jsTrim p.2 ≠ [] then uspSet acc p.1 p.2 else acc) acc
        = acc ++ l := by
  induction l with
  | nil => intro acc _ _; simp
  | cons p t ih =>
      intro acc hnd hval
      obtain ⟨k, v⟩ := p
      rw [List.foldl_cons, if_pos (hval (k, v) (List.mem_cons_self _ t))]
      have hfresh : k ∉ acc.map Prod.fst := by
        simp only [List.map_cons] at hnd
        rcases List.nodup_append.mp hnd with ⟨_, _, hdisj⟩
        exact fun hmem => hdisj hmem (List.mem_cons_self _ _)
      rw [uspSet_absent hfresh]
      have hnd' : ((acc ++ [((k : JStr), (v : JStr))]).map Prod.fst ++ t.map Prod.fst).Nodup := by
        simp only [List.map_append, List.map_cons, List.map_nil] at hnd ⊢
        simpa [List.append_assoc] using hnd
      rw [ih (acc ++ [(k, v)]) hnd' fun q hq => hval q (List.mem_cons_of_mem _ hq)]
      simp

theorem buildUSP_eq_self {l : List (JStr × JStr)} (hnd : (l.map Prod.fst).Nodup)
    (hval : ∀ p ∈ l, p.2 ≠ [] ∧ jsTrim p.2 ≠ []) : buildUSP l = l := by
  unfold buildUSP
  simpa using foldl_uspSet_append [] (by simpa) hval

theorem foldl_setAssoc_append {l : List (JStr × JStr)} :
    ∀ acc : List (JStr × JStr),
      (acc.map Prod.fst ++ l.map Prod.fst).Nodup →
      (∀ p ∈ l, p.1 ≠ []) →
      l.foldl (fun acc p => if p.1 = [] then acc else setAssoc acc p.1 p.2) acc
        = acc ++ l := by
  induction l with
  | nil => intro acc _ _; simp
  | cons p t ih =>
      intro acc hnd hkey
      obtain ⟨k, v⟩ := p
      rw [List.foldl_cons, if_neg (hkey (k, v) (List.mem_cons_self _ t))]
      have hfresh : k ∉ acc.map Prod.fst := by
        simp only [List.map_cons] at hnd
        rcases List.nodup_append.mp hnd with ⟨_, _, hdisj⟩
        exact fun hmem => hdisj hmem (List.mem_cons_self _ _)
      rw [setAssoc_absent hfresh]
      have hnd' : ((acc ++ [((k : JStr), (v : JStr))]).map Prod.fst ++ t.map Prod.fst).Nodup := by
        simp only [List.map_append, List.map_cons, List.map_nil] at hnd ⊢
        simpa [List.append_assoc] using hnd
      rw [ih (acc ++ [(k, v)]) hnd' fun q hq => hkey q (List.mem_cons_of_mem _ hq)]
      simp

theorem recordPairs_eq_self {l : List (JStr × JStr)} (hnd : (l.map Prod.fst).Nodup)
    (hk : ∀ p ∈ l, p.1 ≠ []) : recordPairs l = l := by
  unfold recordPairs
  simpa using foldl_setAssoc_append [] (by simpa) hk

/-! ## `mergeUrl` shape lemmas -/

theorem serializeUSP_ne_nil {l : List (JStr × JStr)} (h : l ≠ []) :
    serializeUSP l ≠ [] := by
  unfold serializeUSP
  cases l with
  | nil => exact absurd rfl h
  | cons p t =>
      cases t with
      | nil => simp [joinAmp]
      | cons q r => simp [joinAmp]

theorem mergeUrl_append {cleanUrl : JStr} {params : List (JStr × JStr)}
    (hc : cleanUrl ≠ []) (hq : serializeUSP (buildUSP params) ≠ [])
    (h63 : includesByte cleanUrl 63 = false) :
    mergeUrl cleanUrl params = cleanUrl ++ 63 :: serializeUSP (buildUSP params) := by
  unfold mergeUrl
  rw [if_neg fun h => hc h.1]
  simp only [h63]
  rw [if_neg hc, if_pos hq]
  simp

theorem mergeUrl_empty_query {cleanUrl : JStr} {params : List (JStr × JStr)}
    (hq : serializeUSP (buildUSP params) = []) :
    mergeUrl cleanUrl params = cleanUrl := by
  unfold mergeUrl
  by_cases h0 : cleanUrl = [] ∧ params = []
  · rw [if_pos h0, h0.1]
  · rw [if_neg h0]
    by_cases hc : cleanUrl = []
    · rw [if_pos hc, hq, hc]
    · rw [if_neg hc, if_neg (by rw [hq]; exact fun h => h rfl)]

theorem mergeUrl_empty_clean (params : List (JStr × JStr)) :
    mergeUrl [] params = serializeUSP (buildUSP params) := by
  unfold mergeUrl
  by_cases h0 : params = []
  · rw [if_pos ⟨rfl, h0⟩, h0]
    rfl
  · rw [if_neg fun h => h0 h.2, if_pos rfl]

theorem mergeUrl_sep {cleanUrl : JStr} {params : List (JStr × JStr)}
    (hc : cleanUrl ≠ []) (hq : serializeUSP (buildUSP params) ≠ []) :
    mergeUrl cleanUrl params
      = cleanUrl ++ (if includesByte cleanUrl 63 then (38 : Nat) else 63)
          :: serializeUSP (buildUSP params) := by
  unfold mergeUrl
  rw [if_neg fun h => hc h.1]
  simp only []
  rw [if_neg hc, if_pos hq]

theorem foldl_buildUSP_filter {l : List (JStr × JStr)} :
    ∀ acc : List (JStr × JStr),
      l.foldl (fun acc p => if p.2 ≠ [] ∧ jsTrim p.2 ≠ [] then uspSet acc p.1 p.2 else acc) acc
        = (l.filter fun p => decide (p.2 ≠ [] ∧ jsTrim p.2 ≠ [])).foldl
            (fun acc p => if p.2 ≠ [] ∧ jsTrim p.2 ≠ [] then uspSet acc p.1 p.2 else acc) acc := by
  induction l with
  | nil => intro acc; rfl
  | cons p t ih =>
      intro acc
      by_cases hp : p.2 ≠ [] ∧ jsTrim p.2 ≠ []
      · rw [List.foldl_cons, if_pos hp, List.filter_cons_of_pos (by simpa using hp),
          List.foldl_cons, if_pos hp]
        exact ih _
      · rw [List.foldl_cons, if_neg hp, List.filter_cons_of_neg (by simpa using hp)]
        exact ih _

theorem buildUSP_filter_blank (l : List (JStr × JStr)) :
    buildUSP l = buildUSP (l.filter fun p => decide (p.2 ≠ [] ∧ jsTrim p.2 ≠ [])) := by
  unfold buildUSP
  exact foldl_buildUSP_filter []

/-! ## Claim C1: the split/merge round trip -/

/-- C1 (counterexample): `cleanUrl = ""` (which contains no `?`) and the
non-blank-valued `params = {a: "b.c"}` merge to `"a=b.c"`, which the
splitter refuses to treat as a naked query (it has a `.` and no `utm_`),
so the round trip returns `cleanUrl = "a=b.c"` and empty params. -/
theorem C1_roundtrip_counterexample :
    mergeUrl [] [(str "a", str "b.c")] = str "a=b.c" ∧
    splitUrl (mergeUrl [] [(str "a", str "b.c")]) = ⟨str "a=b.c", []⟩ ∧
    includesByte ([] : JStr) 63 = false ∧
    (∀ p ∈ [((str "a" : JStr), (str "b.c" : JStr))], p.2 ≠ [] ∧ jsTrim p.2 ≠ []) := by
  decide

/-- C1 (amended): the round trip holds for a non-empty, trimmed
`cleanUrl` containing neither `?` nor `#`, and a non-empty `params` with
distinct non-empty keys and values that are neither empty nor
all-whitespace: `split(merge(cleanUrl, params))` returns exactly the
original `cleanUrl` and the original key/value mapping. -/
theorem C1_roundtrip_amended (cleanUrl : JStr) (params : List (JStr × JStr))
    (hcne : cleanUrl ≠ [])
    (hctrim : jsTrim cleanUrl = cleanUrl)
    (hc63 : (63 : Nat) ∉ cleanUrl)
    (hc35 : (35 : Nat) ∉ cleanUrl)
    (hpne : params ≠ [])
    (hnd : (params.map Prod.fst).Nodup)
    (hkeys : ∀ p ∈ params, p.1 ≠ [])
    (hvals : ∀ p ∈ params, jsTrim p.2 ≠ [])
    (hbytes : ∀ p ∈ params, (∀ b ∈ p.1, b < 256) ∧ (∀ b ∈ p.2, b < 256)) :
    (splitUrl (mergeUrl cleanUrl params)).cleanUrl = cleanUrl ∧
    ∀ k v : JStr,
      ((k, v) ∈ (splitUrl (mergeUrl cleanUrl params)).params ↔ (k, v) ∈ params) := by
  have hvals' : ∀ p ∈ params, p.2 ≠ [] ∧ jsTrim p.2 ≠ [] := fun p hp =>
    ⟨fun h => hvals p hp (by rw [h]; rfl), hvals p hp⟩
  have hbuild : buildUSP params = params := buildUSP_eq_self hnd hvals'
  have hqs' : serializeUSP (buildUSP params) = serializeUSP params := by rw [hbuild]
  have hqsne : serializeUSP (buildUSP params) ≠ [] := by
    rw [hqs']
    exact serializeUSP_ne_nil hpne
  have h63 : includesByte cleanUrl 63 = false := includesByte_eq_false.mpr hc63
  have hm : mergeUrl cleanUrl params = cleanUrl ++ 63 :: serializeUSP params := by
    rw [mergeUrl_append hcne hqsne h63, hqs']
  have hqprops : ∀ c ∈ serializeUSP params, c ≠ 63 ∧ c ≠ 35 ∧ jsWhite c = false :=
    serializeUSP_byte_props
  have htrim : jsTrim (cleanUrl ++ 63 :: serializeUSP params)
      = cleanUrl ++ 63 :: serializeUSP params := by
    apply jsTrim_eq_self_of
    · intro b hb
      cases hcu : cleanUrl with
      | nil => exact absurd hcu hcne
      | cons x t =>
          rw [hcu] at hb
          simp only [List.cons_append, List.head?_cons, Option.mem_def,
            Option.some.injEq] at hb
          subst hb
          exact jsTrim_self_head hctrim _ (by rw [hcu]; simp)
    · intro b hb
      rw [List.getLast?_append_of_ne_nil _ (by simp)] at hb
      cases hq : serializeUSP params with
      | nil => exact absurd hq (by rw [← hqs']; exact hqsne)
      | cons c cs =>
          rw [hq, List.getLast?_cons_cons,
            List.getLast?_eq_getLast (c :: cs) (by simp)] at hb
          simp only [Option.mem_def, Option.some.injEq] at hb
          have hbmem : b ∈ c :: cs := hb ▸ List.getLast_mem (by simp)
          exact (hqprops b (hq ▸ hbmem)).2.2
  have hhash : (35 : Nat) ∉ cleanUrl ++ 63 :: serializeUSP params := by
    intro hmem
    rcases List.mem_append.mp hmem with h | h
    · exact hc35 h
    · rcases List.mem_cons.mp h with h35 | h
      · exact absurd h35 (by decide)
      · exact (hqprops 35 h).2.1 rfl
  have hbh : beforeHash (jsTrim (cleanUrl ++ 63 :: serializeUSP params))
      = cleanUrl ++ 63 :: serializeUSP params := by
    rw [htrim]
    exact beforeHash_of_no_hash hhash
  have hq : includesByte (beforeHash (jsTrim (cleanUrl ++ 63 :: serializeUSP params))) 63
      = true := by
    rw [hbh]
    exact includesByte_iff.mpr (by simp)
  have hsplit := splitUrl_query hq
  rw [hbh] at hsplit
  obtain ⟨htake, hdrop⟩ := idxOf_split (serializeUSP params) hc63
  rw [htake, hdrop, if_neg (by rw [← hqs']; exact hqsne)] at hsplit
  have hparse : parseURLSearchParams (serializeUSP params) = params :=
    parse_serializeUSP hbytes
  rw [hparse, recordPairs_eq_self hnd hkeys] at hsplit
  rw [hm, hsplit]
  exact ⟨rfl, fun k v => Iff.rfl⟩

/-- C1 witness: a concrete round trip through the amended theorem. -/
theorem C1_roundtrip_witness :
    (splitUrl (mergeUrl (str "http://x.com/a")
        [(str "utm_source", str "g"), (str "utm_medium", str "cpc")])).cleanUrl
      = str "http://x.com/a" ∧
    ((str "utm_source", str "g")
        ∈ (splitUrl (mergeUrl (str "http://x.com/a")
            [(str "utm_source", str "g"), (str "utm_medium", str "cpc")])).params ↔
      (str "utm_source", str "g")
        ∈ [((str "utm_source" : JStr), (str "g" : JStr)), (str "utm_medium", str "cpc")]) := by
  have h := C1_roundtrip_amended (str "http://x.com/a")
    [(str "utm_source", str "g"), (str "utm_medium", str "cpc")]
    (by decide) (by decide) (by decide) (by decide) (by decide) (by decide)
    (by decide) (by decide) (by decide)
  exact ⟨h.1, h.2 (str "utm_source") (str "g")⟩

/-! ## Claim C5: merge behaviour -/

/-- C5 (counterexample): with `cleanUrl = ""` (no `?` in it) and a
non-blank param, `mergeUrl` returns the bare query string `"a=1"` rather
than appending `?` to the (empty) clean URL as the claim's "otherwise"
clause describes. -/
theorem C5_merge_counterexample :
    mergeUrl [] [(str "a", str "1")] = str "a=1" ∧
    mergeUrl [] [(str "a", str "1")] ≠ ([] : JStr) ++ 63 :: str "a=1" := by decide

/-- C5 (amended): blank-valued entries are dropped (merging equals
merging the filtered mapping); an empty encoded query yields `cleanUrl`
unchanged (never a bare `?`); an empty `cleanUrl` yields the encoded
query string alone; and a non-empty `cleanUrl` with a non-empty encoded
query appends it after `?` (or `&` when `cleanUrl` already has `?`). -/
theorem C5_merge_amended (cleanUrl : JStr) (params : List (JStr × JStr)) :
    mergeUrl cleanUrl params
        = mergeUrl cleanUrl (params.filter fun p => decide (p.2 ≠ [] ∧ jsTrim p.2 ≠ [])) ∧
    (serializeUSP (buildUSP params) = [] → mergeUrl cleanUrl params = cleanUrl) ∧
    (cleanUrl = [] → mergeUrl cleanUrl params = serializeUSP (buildUSP params)) ∧
    (cleanUrl ≠ [] → serializeUSP (buildUSP params) ≠ [] →
      mergeUrl cleanUrl params
        = cleanUrl ++ (if includesByte cleanUrl 63 then (38 : Nat) else 63)
            :: serializeUSP (buildUSP params)) := by
  refine ⟨?_, fun hq => mergeUrl_empty_query hq,
    fun hc => by rw [hc]; exact mergeUrl_empty_clean params,
    fun hc hq => mergeUrl_sep hc hq⟩
  by_cases hc : cleanUrl = []
  · rw [hc, mergeUrl_empty_clean, mergeUrl_empty_clean, buildUSP_filter_blank params]
  · by_cases hq : serializeUSP (buildUSP params) = []
    · have hqP : serializeUSP (buildUSP
          (params.filter fun p => decide (p.2 ≠ [] ∧ jsTrim p.2 ≠ []))) = [] := by
        rw [← buildUSP_filter_blank]
        exact hq
      rw [mergeUrl_empty_query hq, mergeUrl_empty_query hqP]
    · have hqP : serializeUSP (buildUSP
          (params.filter fun p => decide (p.2 ≠ [] ∧ jsTrim p.2 ≠ []))) ≠ [] := by
        rw [← buildUSP_filter_blank]
        exact hq
      rw [mergeUrl_sep hc hq, mergeUrl_sep hc hqP, ← buildUSP_filter_blank]

/-- C5 witness: the spec's own example, blank `a` dropped. -/
theorem C5_merge_witness :
    mergeUrl (str "http://x.com") [(str "a", str ""), (str "b", str "2")]
      = str "http://x.com"
          ++ (if includesByte (str "http://x.com") 63 then (38 : Nat) else 63)
            :: serializeUSP (buildUSP [(str "a", str ""), (str "b", str "2")]) ∧
    mergeUrl (str "http://x.com") [(str "a", str ""), (str "b", str "2")]
      = str "http://x.com?b=2" :=
  ⟨(C5_merge_amended (str "http://x.com") [(str "a", str ""), (str "b", str "2")]).2.2.2
      (by decide) (by decide),
    by decide⟩

/-! ## Claim C9: query parsing edge cases -/

/-- C9 (counterexample): on `"a??b=1"` the raw query substring is
`"?b=1"`, and the codec strips that leading `?`, so the recorded key is
`"b"`, not the literal `"?b"` the claim predicts. -/
theorem C9_parsing_counterexample :
    (splitUrl (str "a??b=1")).params = [(str "b", str "1")] ∧
    ((str "?b" : JStr), (str "1" : JStr)) ∉ (splitUrl (str "a??b=1")).params := by
  decide

theorem getLast?_or_cons {α : Type} (a : α) (l : List α) :
    (a :: l).getLast? = (l.getLast?).or (some a) := by
  cases l with
  | nil => rfl
  | cons b t =>
      rw [List.getLast?_cons_cons, List.getLast?_eq_getLast (b :: t) (by simp)]
      rfl

theorem mem_setAssoc {l : List (JStr × JStr)} {k v : JStr} {q : JStr × JStr}
    (hq : q ∈ setAssoc l k v) : q ∈ l ∨ q = (k, v) := by
  unfold setAssoc at hq
  by_cases hany : (l.any fun p => p.1 == k) = true
  · rw [if_pos hany] at hq
    rw [List.mem_map] at hq
    obtain ⟨p, hp, hpq⟩ := hq
    by_cases hpk : (p.1 == k) = true
    · rw [if_pos hpk] at hpq
      exact Or.inr hpq.symm
    · rw [if_neg hpk] at hpq
      exact Or.inl (hpq ▸ hp)
  · rw [if_neg (by simpa using hany)] at hq
    rcases List.mem_append.mp hq with h | h
    · exact Or.inl h
    · exact Or.inr (List.mem_singleton.mp h)

theorem recordPairs_lookup_aux {k : JStr} (hk : k ≠ []) (pairs : List (JStr × JStr)) :
    ∀ acc,
      lookupAssoc
        (pairs.foldl (fun acc p => if p.1 = [] then acc else setAssoc acc p.1 p.2) acc) k
      = (((pairs.filter fun p => p.1 == k).map Prod.snd).getLast?).or (lookupAssoc acc k) := by
  induction pairs with
  | nil => intro acc; simp
  | cons p t ih =>
      intro acc
      rw [List.foldl_cons]
      by_cases hp : p.1 = []
      · rw [if_pos hp, List.filter_cons_of_neg
          (by simp only [hp, beq_iff_eq]; exact fun h => hk h.symm)]
        exact ih acc
      · rw [if_neg hp]
        by_cases hpk : p.1 = k
        · rw [List.filter_cons_of_pos (by simp [hpk]), ih (setAssoc acc p.1 p.2), hpk,
            lookupAssoc_setAssoc_self, List.map_cons, getLast?_or_cons]
          cases ((t.filter fun p => p.1 == k).map Prod.snd).getLast? <;> rfl
        · rw [List.filter_cons_of_neg (by simp [hpk]), ih (setAssoc acc p.1 p.2),
            lookupAssoc_setAssoc_ne acc p.2 hpk]

theorem recordPairs_keys_aux (pairs : List (JStr × JStr)) :
    ∀ acc, (∀ p ∈ acc, p.1 ≠ []) →
      ∀ p ∈ pairs.foldl (fun acc p => if p.1 = [] then acc else setAssoc acc p.1 p.2) acc,
        p.1 ≠ [] := by
  induction pairs with
  | nil => intro acc hacc; exact hacc
  | cons q t ih =>
      intro acc hacc
      rw [List.foldl_cons]
      by_cases hq : q.1 = []
      · rw [if_pos hq]
        exact ih acc hacc
      · rw [if_neg hq]
        refine ih _ fun p hp => ?_
        rcases mem_setAssoc hp with h | rfl
        · exact hacc p h
        · exact hq

/-- C9 (amended): `splitUrl` splits at the first `?` only — everything
after it is handed to the codec as one raw query substring (which strips
one leading `?` if the raw substring begins with another `?`, and treats
later `?` bytes as literal characters); duplicate keys end with the last
occurrence's value; empty-key pairs are dropped. -/
theorem C9_parsing_amended :
    (∀ a b : JStr, (63 : Nat) ∉ a → (35 : Nat) ∉ a → (35 : Nat) ∉ b →
      jsTrim (a ++ 63 :: b) = a ++ 63 :: b →
      splitUrl (a ++ 63 :: b)
        = ⟨a, if b = [] then [] else recordPairs (parseURLSearchParams b)⟩) ∧
    (∀ pairs : List (JStr × JStr), ∀ k : JStr, k ≠ [] →
      lookupAssoc (recordPairs pairs) k
        = ((pairs.filter fun p => p.1 == k).map Prod.snd).getLast?) ∧
    (∀ pairs : List (JStr × JStr), ∀ p ∈ recordPairs pairs, p.1 ≠ []) := by
  refine ⟨?_, ?_, ?_⟩
  · intro a b h63 h35a h35b htrim
    have hhash : (35 : Nat) ∉ a ++ 63 :: b := by
      intro hmem
      rcases List.mem_append.mp hmem with h | h
      · exact h35a h
      · rcases List.mem_cons.mp h with h35 | h
        · exact absurd h35 (by decide)
        · exact h35b h
    have hbh : beforeHash (jsTrim (a ++ 63 :: b)) = a ++ 63 :: b := by
      rw [htrim]
      exact beforeHash_of_no_hash hhash
    have hq : includesByte (beforeHash (jsTrim (a ++ 63 :: b))) 63 = true := by
      rw [hbh]
      exact includesByte_iff.mpr (by simp)
    have hsplit := splitUrl_query hq
    rw [hbh] at hsplit
    obtain ⟨ht, hd⟩ := idxOf_split b h63
    rw [ht, hd] at hsplit
    exact hsplit
  · intro pairs k hk
    unfold recordPairs
    rw [recordPairs_lookup_aux hk pairs []]
    cases ((pairs.filter fun p => p.1 == k).map Prod.snd).getLast? <;> rfl
  · intro pairs
    exact recordPairs_keys_aux pairs [] (by simp)

/-- C9 witness: concrete instances of all three amended parts. -/
theorem C9_parsing_witness :
    splitUrl (str "x" ++ 63 :: str "a=1&a=2&=3")
      = ⟨str "x", if (str "a=1&a=2&=3" : JStr) = [] then []
          else recordPairs (parseURLSearchParams (str "a=1&a=2&=3"))⟩ ∧
    lookupAssoc (recordPairs [(str "a", str "1"), (str "a", str "2")]) (str "a")
      = (([(str "a", str "1"), (str "a", str "2")].filter
            fun p => p.1 == str "a").map Prod.snd).getLast? ∧
    (∀ p ∈ recordPairs [(([] : JStr), (str "5" : JStr)), (str "b", str "7")], p.1 ≠ []) :=
  ⟨C9_parsing_amended.1 (str "x") (str "a=1&a=2&=3") (by decide) (by decide) (by decide)
      (by decide),
    C9_parsing_amended.2.1 [(str "a", str "1"), (str "a", str "2")] (str "a") (by decide),
    C9_parsing_amended.2.2 [(([] : JStr), (str "5" : JStr)), (str "b", str "7")]⟩

/-! ## Claim C6: the detector score formula -/

/-- The sampled row has a non-empty trimmed value under header `h`. -/
def rowNonEmpty (h : JStr) (row : Row) : Bool := !(jsTrim (rowGet row h) == [])

/-- Row counts toward the UTM content counter. -/
def rowUtm (h : JStr) (row : Row) : Bool :=
  rowNonEmpty h row && utmPat (toLowerB (jsTrim (rowGet row h)))

/-- Row counts toward the URL content counter. -/
def rowUrl (h : JStr) (row : Row) : Bool :=
  rowNonEmpty h row && urlPat (jsTrim (rowGet row h))

/-- Row counts toward the tracking-id content counter. -/
def rowTracking (h : JStr) (row : Row) : Bool :=
  rowNonEmpty h row && trackingPat (toLowerB (jsTrim (rowGet row h)))

/-- Row counts toward the query-string content counter. -/
def rowQuery (h : JStr) (row : Row) : Bool :=
  rowNonEmpty h row && queryPat (jsTrim (rowGet row h))

/-- Row counts toward the ampersand content counter. -/
def rowAmp (h : JStr) (row : Row) : Bool :=
  rowNonEmpty h row && ampPat (jsTrim (rowGet row h))

theorem countStep_eq (h : JStr) (c : Counts) (row : Row) :
    countStep h c row =
      ⟨c.utm + (if rowUtm h row then 1 else 0),
       c.url + (if rowUrl h row then 1 else 0),
       c.trackingId + (if rowTracking h row then 1 else 0),
       c.queryString + (if rowQuery h row then 1 else 0),
       c.ampersand + (if rowAmp h row then 1 else 0)⟩ := by
  obtain ⟨u, r, tr, q, a⟩ := c
  unfold countStep rowUtm rowUrl rowTracking rowQuery rowAmp rowNonEmpty
  by_cases hval : jsTrim (rowGet row h) = []
  · simp [hval]
  · have hne : (jsTrim (rowGet row h) == []) = false := by simpa using hval
    simp only [if_neg hval, hne, Bool.not_false, Bool.true_and]
    split_ifs <;> rfl

theorem counts_foldl (h : JStr) (sample : List Row) :
    ∀ c : Counts,
      sample.foldl (countStep h) c
        = ⟨c.utm + sample.countP (rowUtm h), c.url + sample.countP (rowUrl h),
           c.trackingId + sample.countP (rowTracking h),
           c.queryString + sample.countP (rowQuery h),
           c.ampersand + sample.countP (rowAmp h)⟩ := by
  induction sample with
  | nil =>
      intro c
      obtain ⟨u, r, tr, q, a⟩ := c
      simp [List.countP_nil]
  | cons row t ih =>
      intro c
      rw [List.foldl_cons, countStep_eq, ih]
      obtain ⟨u, r, tr, q, a⟩ := c
      simp only [List.countP_cons, Counts.mk.injEq]
      refine ⟨?_, ?_, ?_, ?_, ?_⟩ <;> (split_ifs <;> omega)

theorem ite_add_right {c : Prop} [Decidable c] (x n : ℚ) :
    (if c then x + n else x) = x + (if c then n else 0) := by
  split_ifs <;> simp

/-- C6: a header's detector score is the sum of its (stacking)
header-name bonuses plus the five content counts, each divided by the
sample size and weighted 50/30/20/10/25. -/
theorem C6_score_formula (h : JStr) (sample : List Row) (sampleSize : Nat) :
    scoreHeader h sample sampleSize =
      (if toLowerB h = str "url" ∨ toLowerB h = str "original_url" ∨ toLowerB h = str "link"
        then 25 else 0)
      + (if jsIncludes (toLowerB h) (str "utm") then 20 else 0)
      + (if jsIncludes (toLowerB h) (str "landing_page") then 15 else 0)
      + (if jsIncludes (toLowerB h) (str "destination") then 12 else 0)
      + (if jsIncludes (toLowerB h) (str "campaign") then 10 else 0)
      + (if jsIncludes (toLowerB h) (str "source") ∨ jsIncludes (toLowerB h) (str "medium")
        then 8 else 0)
      + (if toLowerB h = str "g" ∨ toLowerB h = str "gclid" ∨ toLowerB h = str "click_id"
        then 5 else 0)
      + (sample.countP (rowUtm h) : ℚ) / sampleSize * 50
      + (sample.countP (rowUrl h) : ℚ) / sampleSize * 30
      + (sample.countP (rowTracking h) : ℚ) / sampleSize * 20
      + (sample.countP (rowQuery h) : ℚ) / sampleSize * 10
      + (sample.countP (rowAmp h) : ℚ) / sampleSize * 25 := by
  simp only [scoreHeader, counts_foldl, Nat.zero_add, ite_add_right, zero_add]

/-! ## Claim C7: detector selection rule -/

/-- The highest score over the headers, starting from the detector's
initial `-1` (specification-side definition for stating C7). -/
def bestScore (headers : List JStr) (sample : List Row) (sampleSize : Nat) : ℚ :=
  headers.foldl (fun m h => max m (scoreHeader h sample sampleSize)) (-1)

theorem le_foldlMax (f : JStr → ℚ) (hs : List JStr) :
    ∀ s : ℚ, s ≤ hs.foldl (fun m h => max m (f h)) s := by
  induction hs with
  | nil => intro s; simp
  | cons a t ih =>
      intro s
      rw [List.foldl_cons]
      exact le_trans (le_max_left s (f a)) (ih (max s (f a)))

theorem foldlMax_cases (f : JStr → ℚ) (hs : List JStr) :
    ∀ s : ℚ, hs.foldl (fun m h => max m (f h)) s = s ∨
      ∃ h ∈ hs, f h = hs.foldl (fun m h => max m (f h)) s := by
  induction hs with
  | nil => intro s; exact Or.inl rfl
  | cons a t ih =>
      intro s
      rw [List.foldl_cons]
      rcases ih (max s (f a)) with heq | ⟨h, hmem, hfh⟩
      · rcases le_total s (f a) with hle | hle
        · exact Or.inr ⟨a, List.mem_cons_self a t, by rw [heq, max_eq_right hle]⟩
        · exact Or.inl (by rw [heq, max_eq_left hle])
      · exact Or.inr ⟨h, List.mem_cons_of_mem _ hmem, hfh⟩

theorem foldl_argmax (f : JStr → ℚ) (hs : List JStr) :
    ∀ (b : JStr) (s : ℚ),
      hs.foldl (fun acc h => if f h > acc.2 then (h, f h) else acc) (b, s)
        = ((if hs.foldl (fun m h => max m (f h)) s > s
              then (hs.find? fun h =>
                decide (f h = hs.foldl (fun m h => max m (f h)) s)).getD b
              else b),
           hs.foldl (fun m h => max m (f h)) s) := by
  induction hs with
  | nil =>
      intro b s
      simp
  | cons a t ih =>
      intro b s
      rw [List.foldl_cons, List.foldl_cons]
      by_cases ha : f a > s
      · rw [if_pos ha]
        have hmax : max s (f a) = f a := max_eq_right (le_of_lt ha)
        rw [hmax, ih a (f a)]
        have hMs : t.foldl (fun m h => max m (f h)) (f a) > s :=
          lt_of_lt_of_le ha (le_foldlMax f t (f a))
        rw [if_pos hMs]
        by_cases hMt : t.foldl (fun m h => max m (f h)) (f a) > f a
        · rw [if_pos hMt]
          have hne : ¬(f a = t.foldl (fun m h => max m (f h)) (f a)) := fun he =>
            absurd hMt (by rw [← he]; exact lt_irrefl _)
          rw [List.find?_cons_of_neg _ (by simpa using hne)]
          obtain ⟨h0, hmem, hfh⟩ :=
            (foldlMax_cases f t (f a)).resolve_left fun he =>
              absurd hMt (by rw [he]; exact lt_irrefl _)
          have hsome : (t.find? fun h =>
              decide (f h = t.foldl (fun m h => max m (f h)) (f a))).isSome :=
            List.find?_isSome.mpr ⟨h0, hmem, by simpa using hfh⟩
          cases hfind : t.find? fun h =>
              decide (f h = t.foldl (fun m h => max m (f h)) (f a)) with
          | none => rw [hfind] at hsome; cases hsome
          | some x => rfl
        · rw [if_neg hMt]
          have hMt_eq : t.foldl (fun m h => max m (f h)) (f a) = f a :=
            le_antisymm (not_lt.mp hMt) (le_foldlMax f t (f a))
          rw [List.find?_cons_of_pos _ (by simpa using hMt_eq.symm)]
          rfl
      · rw [if_neg ha]
        have hmax : max s (f a) = s := max_eq_left (not_lt.mp ha)
        rw [hmax, ih b s]
        by_cases hM : t.foldl (fun m h => max m (f h)) s > s
        · rw [if_pos hM, if_pos hM]
          have hne : ¬(f a = t.foldl (fun m h => max m (f h)) s) := fun he =>
            absurd hM (by rw [← he]; exact not_lt.mpr (not_lt.mp ha))
          rw [List.find?_cons_of_neg _ (by simpa using hne)]
        · rw [if_neg hM, if_neg hM]

/-- C7: the detector returns `""` on empty rows; otherwise it returns
the first header attaining the highest score exactly when that score
exceeds 5, and `""` otherwise. -/
theorem C7_selection (headers : List JStr) (data : List Row) :
    (data = [] → detectBestUrlColumn headers data = []) ∧
    (data ≠ [] →
      detectBestUrlColumn headers data =
        if bestScore headers (data.take (min data.length 25)) (min data.length 25) > 5 then
          (headers.find? fun h =>
            decide (scoreHeader h (data.take (min data.length 25)) (min data.length 25)
              = bestScore headers (data.take (min data.length 25)) (min data.length 25))).getD []
        else []) := by
  constructor
  · intro h
    rw [h]
    rfl
  · intro hne
    simp only [detectBestUrlColumn, bestScore]
    rw [if_neg (by simpa [List.length_eq_zero] using hne)]
    rw [foldl_argmax (fun h =>
      scoreHeader h (data.take (min data.length 25)) (min data.length 25)) headers [] (-1)]
    by_cases hM : headers.foldl (fun m h =>
        max m (scoreHeader h (data.take (min data.length 25)) (min data.length 25))) (-1) > 5
    · rw [if_pos hM, if_pos hM, if_pos (lt_trans (by norm_num) hM)]
    · rw [if_neg hM, if_neg hM]

/-- C7 witness: one header with a clear name-based score. -/
theorem C7_selection_witness :
    detectBestUrlColumn [str "url"] [[(str "url", str "a")]] =
      (if bestScore [str "url"] ([[(str "url", str "a")]].take
            (min ([[(str "url", str "a")]] : List Row).length 25))
          (min ([[(str "url", str "a")]] : List Row).length 25) > 5 then
        ((([str "url"] : List JStr)).find? fun h =>
          decide (scoreHeader h ([[(str "url", str "a")]].take
              (min ([[(str "url", str "a")]] : List Row).length 25))
            (min ([[(str "url", str "a")]] : List Row).length 25)
            = bestScore [str "url"] ([[(str "url", str "a")]].take
                (min ([[(str "url", str "a")]] : List Row).length 25))
              (min ([[(str "url", str "a")]] : List Row).length 25))).getD []
      else []) ∧
    detectBestUrlColumn [str "url"] [[(str "url", str "a")]] = str "url" := by
  constructor
  · exact (C7_selection [str "url"] [[(str "url", str "a")]]).2 (by decide)
  · have hc : [[((str "url" : JStr), (str "a" : JStr))]].foldl (countStep (str "url"))
        ⟨0, 0, 0, 0, 0⟩ = ⟨0, 0, 0, 0, 0⟩ := by decide
    have hs : scoreHeader (str "url") [[(str "url", str "a")]] 1 = 25 := by
      simp only [scoreHeader, hc]
      norm_num +decide
    simp only [detectBestUrlColumn, List.foldl, List.length, List.take, min]
    norm_num [hs]

/-! ## Claim C8: detector sampling noninterference -/

/-- C8: when both row lists have more than 25 rows and agree on their
first 25 rows, the detector returns the same column — rows beyond the
25th never affect the result. -/
theorem C8_sampling_noninterference (headers : List JStr) (d1 d2 : List Row)
    (h1 : 25 < d1.length) (h2 : 25 < d2.length) (heq : d1.take 25 = d2.take 25) :
    detectBestUrlColumn headers d1 = detectBestUrlColumn headers d2 := by
  have hne1 : ¬(d1.length = 0) := by omega
  have hne2 : ¬(d2.length = 0) := by omega
  have e1 : min d1.length 25 = 25 := min_eq_right (by omega)
  have e2 : min d2.length 25 = 25 := min_eq_right (by omega)
  simp only [detectBestUrlColumn, if_neg hne1, if_neg hne2, e1, e2, heq]

/-- C8 witness: two 26-row tables differing only in row 26. -/
theorem C8_sampling_witness :
    detectBestUrlColumn [str "url"] (List.replicate 26 ([] : Row))
      = detectBestUrlColumn [str "url"]
          (List.replicate 25 ([] : Row) ++ [[(str "url", str "x")]]) :=
  C8_sampling_noninterference [str "url"] _ _ (by decide) (by decide) (by decide)

/-! ## Claim C10: detector output is a known header -/

theorem foldl_best_mem (f : JStr → ℚ) (hs : List JStr) :
    ∀ acc : JStr × ℚ,
      (hs.foldl (fun acc h => if f h > acc.2 then (h, f h) else acc) acc).1 = acc.1 ∨
      (hs.foldl (fun acc h => if f h > acc.2 then (h, f h) else acc) acc).1 ∈ hs := by
  induction hs with
  | nil => intro acc; exact Or.inl rfl
  | cons a t ih =>
      intro acc
      rw [List.foldl_cons]
      by_cases ha : f a > acc.2
      · rw [if_pos ha]
        rcases ih (a, f a) with h | h
        · exact Or.inr (h ▸ List.mem_cons_self a t)
        · exact Or.inr (List.mem_cons_of_mem _ h)
      · rw [if_neg ha]
        rcases ih acc with h | h
        · exact Or.inl h
        · exact Or.inr (List.mem_cons_of_mem _ h)

/-- C10: the detector returns either `""` or one of the given headers;
in particular with no headers it returns `""` even on non-empty rows. -/
theorem C10_membership (headers : List JStr) (data : List Row) :
    (detectBestUrlColumn headers data = [] ∨ detectBestUrlColumn headers data ∈ headers) ∧
    (headers = [] → detectBestUrlColumn headers data = []) := by
  constructor
  · by_cases hd : data.length = 0
    · left
      unfold detectBestUrlColumn
      rw [if_pos hd]
    · simp only [detectBestUrlColumn]
      rw [if_neg hd]
      by_cases h5 : (headers.foldl
          (fun (acc : JStr × ℚ) h =>
            if scoreHeader h (data.take (min data.length 25)) (min data.length 25) > acc.2
            then (h, scoreHeader h (data.take (min data.length 25)) (min data.length 25))
            else acc) ([], -1)).2 > 5
      · rw [if_pos h5]
        rcases foldl_best_mem
            (fun h => scoreHeader h (data.take (min data.length 25)) (min data.length 25))
            headers ([], -1) with h | h
        · exact Or.inl h
        · exact Or.inr h
      · rw [if_neg h5]
        exact Or.inl rfl
  · intro h
    subst h
    by_cases hd : data.length = 0
    · unfold detectBestUrlColumn
      rw [if_pos hd]
    · simp only [detectBestUrlColumn]
      rw [if_neg hd]
      norm_num

/-- C10 witness: empty headers with a non-empty row list. -/
theorem C10_membership_witness :
    detectBestUrlColumn [] [[(str "a", str "b")]] = [] :=
  (C10_membership [] [[(str "a", str "b")]]).2 rfl
